import Mathlib

/-!
Verification of the FHE string library (`fhe_string`): a shallow embedding of
the `FheString` data model (`ciphertext.rs`) and of the server-key string
algorithms (`contains.rs`, `partial_ordering.rs`, `split.rs`, `mod.rs`).

Ciphertext bytes are modelled by their plaintext values (`Nat`), since every
homomorphic primitive used by the library (add, sub, mul, bitand/bitor/bitxor,
eq/ne/lt/le/gt/ge, if-then-else, block extension) computes an exact function of
the underlying values and no intermediate quantity ever reaches the radix
capacity chosen by `compute_blocks_for_len`.  Encrypted booleans are modelled
by `Bool`.  A Rust `assert!`/`panic!` is modelled by `Option.none`.
-/

namespace FheStr

/-- Model of the Rust struct `FheString` (`ciphertext.rs`): `chars` holds the
clear bytes, `fheChars` the values carried by the encrypted bytes, plus the
`is_encrypted`, `is_padded` and `is_reusable` flags. -/
structure FheString where
  chars : List Nat
  fheChars : List Nat
  is_encrypted : Bool
  is_padded : Bool
  is_reusable : Bool
deriving DecidableEq, Repr

/-- `FheString::len` : the visible length, `max(chars.len(), fhe_chars.len())`. -/
def FheString.len (s : FheString) : Nat :=
  max s.chars.length s.fheChars.length

/-- The value sequence a `FheString` carries: `fhe_chars` when encrypted,
`chars` when clear. -/
def FheString.vals (s : FheString) : List Nat :=
  if s.is_encrypted then s.fheChars else s.chars

/-- `FheString::from_string` : builds a clear `FheString`, asserting that every
character is ASCII (`<= 127`) and positive (`> 0`); `none` models the panic. -/
def from_string (l : List Nat) : Option FheString :=
  if l.all (fun c => decide (0 < c) && decide (c ≤ 127)) then
    some { chars := l, fheChars := [], is_encrypted := false,
           is_padded := false, is_reusable := true }
  else
    none

/-- `FheString::sub_string` : copies the index range `index_start ..= index_end`
of whichever sequence is populated; the result keeps `is_reusable` and is
always flagged `is_padded = true` ("set true because we don't know"). -/
def FheString.sub_string (s : FheString) (index_start index_end : Nat) : FheString :=
  { chars := if s.is_encrypted then [] else
      (s.chars.drop index_start).take (index_end + 1 - index_start),
    fheChars := if s.is_encrypted then
      (s.fheChars.drop index_start).take (index_end + 1 - index_start) else [],
    is_encrypted := s.is_encrypted,
    is_padded := true,
    is_reusable := s.is_reusable }

/-- `FheString::encrypt` : requires a clear input (`assert_clear`), checks each
character is ASCII, appends `padding` zero bytes, and flags
`is_padded = padding > 0`, `is_reusable = true`. -/
def FheString.encrypt (s : FheString) (padding : Nat) : Option FheString :=
  if s.is_encrypted then none
  else if s.chars.all (fun c => decide (c ≤ 127)) then
    some { chars := [],
           fheChars := s.chars ++ List.replicate padding 0,
           is_encrypted := true,
           is_padded := decide (padding > 0),
           is_reusable := true }
  else none

/-- `str::trim_end_matches('\0')` : removes the trailing run of zero bytes. -/
def trimEndZeros (l : List Nat) : List Nat :=
  (l.reverse.dropWhile (fun c => c == 0)).reverse

/-- `FheString::decrypt` : requires an encrypted input, decrypts each byte
(asserting it is ASCII), trims trailing zeros, panics when a nominally
reusable value still contains an interior zero, filters out every remaining
zero, and returns a clear, unpadded, reusable `FheString`. -/
def FheString.decrypt (s : FheString) : Option FheString :=
  if !s.is_encrypted then none
  else if !s.fheChars.all (fun c => decide (c ≤ 127)) then none
  else
    let trimmed := trimEndZeros s.fheChars
    if s.is_reusable && trimmed.any (fun c => c == 0) then none
    else
      some { chars := trimmed.filter (fun c => c != 0), fheChars := [],
             is_encrypted := false, is_padded := false, is_reusable := true }

/-- `FheString::concatenate` : concatenates the populated sequences, asserting
the vector is non-empty and its elements share one encryption status; output
`is_padded` is the disjunction of the inputs' flags, and `is_reusable` is the
head's flag for a singleton, else "all but the last unpadded and the last
reusable". -/
def concatenate (l : List FheString) : Option FheString :=
  match l with
  | [] => none
  | s0 :: _ =>
    if l.all (fun s => s.is_encrypted == s0.is_encrypted) then
      some { chars := (l.map (fun s => if s.is_encrypted then [] else s.chars)).flatten,
             fheChars := (l.map (fun s => if s.is_encrypted then s.fheChars else [])).flatten,
             is_encrypted := s0.is_encrypted,
             is_padded := l.any (fun s => s.is_padded),
             is_reusable :=
               if l.length > 1 then
                 (l.dropLast.all (fun s => !s.is_padded)) &&
                   ((l.getLast?.getD s0).is_reusable)
               else
                 s0.is_reusable }
    else none

/-- `ServerKey::compute_blocks_for_len` : the Rust body is
`(x as f64).log2().ceil() as usize + 1`; the exact real-valued ceiling of
`log2 x` is `Nat.clog 2 x`. -/
def compute_blocks_for_len (x : Nat) : Nat :=
  Nat.clog 2 x + 1

/-- `ServerKey::len` : the hidden length.  Trivial `0` for a visibly empty
string, the visible length when unpadded, the clear length when clear, and
otherwise the homomorphic count of non-zero bytes. -/
def skLen (s : FheString) : Nat :=
  if s.len = 0 then 0
  else if !s.is_padded then s.len
  else if !s.is_encrypted then s.chars.length
  else (s.fheChars.filter (fun c => c != 0)).length

/-- `ServerKey::is_empty_indices` : trivially true on an empty range, the
clear slice-emptiness check on a clear string, and otherwise the homomorphic
"all bytes zero" reduction over `fhe_chars[start..end]`. -/
def is_empty_indices (s : FheString) (start_i end_i : Nat) : Bool :=
  if end_i - start_i = 0 then true
  else if !s.is_encrypted then ((s.chars.drop start_i).take (end_i - start_i)).isEmpty
  else ((s.fheChars.drop start_i).take (end_i - start_i)).all (fun c => c == 0)

/-- `ServerKey::is_empty` : `is_empty_indices` over the whole visible range. -/
def isEmptyFhe (s : FheString) : Bool :=
  is_empty_indices s 0 s.len

/-- A slice `vals[start .. start+len]` of the value sequence of a `FheString`.
`eq_same_size_indices`, `eq_same_size_fhe_chars` and
`eq_same_size_fhe_chars_chars` all reduce to equality of two such slices, the
three variants differing only in which homomorphic comparison primitive they
invoke. -/
def sliceVals (s : FheString) (start len : Nat) : List Nat :=
  (s.vals.drop start).take len

/-- `ServerKey::contains_trivially_indices` : the three trivial
short-circuits of the match kernel; `none` means "no trivial result". -/
def contains_trivially_indices (s p : FheString) (start2 end2 index : Nat) :
    Option Bool :=
  if end2 - start2 = 0 then some true
  else if !p.is_padded && decide (s.len < end2 - start2 + index) then some false
  else if s.len = 0 && !s.is_padded then some (is_empty_indices p start2 end2)
  else none

/-- `ServerKey::contains_trivially` : `contains_trivially_indices` over the
whole pattern. -/
def contains_trivially (s p : FheString) (index : Nat) : Option Bool :=
  contains_trivially_indices s p 0 p.len index

/-- `ServerKey::contains_at_index_no_padding` : match of an unpadded pattern at
`index`; asserts the pattern is unpadded and `index < s.len`, tries the
trivial short-circuits, then compares the two aligned slices (all four
clear/encrypted branches compute the same slice equality). -/
def contains_at_index_no_padding (s p : FheString) (index : Nat) : Option Bool :=
  if p.is_padded then none
  else if s.len ≤ index then none
  else match contains_trivially s p index with
  | some b => some b
  | none => some (decide (sliceVals s index p.len = sliceVals p 0 p.len))

/-- One aligned character pair of the padded-pattern kernel: the pair matches
when the bytes are equal or the pattern byte is zero (padding). -/
def eqOrSecondZero (a b : Nat) : Bool :=
  (a == b) || (b == 0)

/-- `ServerKey::contains_at_index`, with an explicit fuel argument bounding
the recursion depth (the Rust recursion strictly decreases `end_2 - start_2`,
so `end2 - start2 + 1` fuel always suffices; `fuel = 0` is unreachable).
Asserts the pattern is flagged padded and `index < s.len`; tries the trivial
short-circuits; when the pattern overruns the string end, recursively checks
the truncated pattern and conjoins emptiness of `pattern[len2-extra ..
len2-1]` (note the source's exclusive bound `len_2 - 1`); otherwise checks
every aligned pair with `eqOrSecondZero` (the clear/clear branch compares the
slices directly, and the encrypted-string/clear-pattern combination panics in
the source because `pattern.fhe_chars()` asserts an encrypted value). -/
def contains_at_index_fuel :
    Nat → FheString → FheString → Nat → Nat → Nat → Option Bool
  | 0, _, _, _, _, _ => none
  | fuel + 1, s, p, start2, end2, index =>
    if !p.is_padded then none
    else if s.len ≤ index then none
    else match contains_trivially_indices s p start2 end2 index with
    | some b => some b
    | none =>
      let len2 := end2 - start2
      if s.len < len2 + index then
        let extra := len2 + index - s.len
        match contains_at_index_fuel fuel s p 0 (len2 - extra) index with
        | none => none
        | some c => some (c && is_empty_indices p (len2 - extra) (len2 - 1))
      else
        if !s.is_encrypted && !p.is_encrypted then
          some (decide (sliceVals s index len2 = sliceVals p start2 len2))
        else if s.is_encrypted && !p.is_encrypted then none
        else
          some (((sliceVals s index len2).zip (sliceVals p start2 len2)).all
            (fun ab => eqOrSecondZero ab.1 ab.2))

/-- `ServerKey::contains_at_index` at its natural fuel. -/
def contains_at_index (s p : FheString) (start2 end2 index : Nat) : Option Bool :=
  contains_at_index_fuel (end2 - start2 + 1) s p start2 end2 index

/-- `ServerKey::contains_at_index_vec` : the per-index match vector; indices
`0 ..= s.len - p.len` for an unpadded pattern (panicking when `p.len > s.len`)
and `0 ..= s.len - 1` for a padded pattern (panicking when `s.len = 0`). -/
def contains_at_index_vec (s p : FheString) : Option (List Bool) :=
  if !p.is_padded then
    if p.len ≤ s.len then
      (List.range (s.len - p.len + 1)).mapM
        (fun index => contains_at_index_no_padding s p index)
    else none
  else
    if s.len = 0 then none
    else (List.range s.len).mapM
      (fun index => contains_at_index s p 0 p.len index)

/-- The sequential `is_all_zeros` prefix vector of `find_or_rfind` :
`is_all_zeros[0] = true`, and `is_all_zeros[k+1] = is_all_zeros[k] AND NOT
v[match_index k]`, where `match_index` reverses the traversal for rfind. -/
def isAllZeros (v : List Bool) (reverse : Bool) : Nat → Bool
  | 0 => true
  | k + 1 =>
    isAllZeros v reverse k &&
      !(v.getD (if reverse then v.length - 1 - k else k) false)

/-- The index accumulation of `find_or_rfind` : the sum over all `k` of
`k * (is_all_zeros[match_index k] AND v[k])`, together with
`found = NOT is_all_zeros[len]`. -/
def findIndexSum (v : List Bool) (reverse : Bool) : Nat × Bool :=
  let len := v.length
  let matchIndex := fun k => if reverse then len - 1 - k else k
  let idx := (List.range len).foldl
    (fun acc k =>
      acc + k * (cond (isAllZeros v reverse (matchIndex k) && v.getD k false) 1 0))
    0
  (idx, !(isAllZeros v reverse len))

/-- `ServerKey::find_or_rfind` : trivial short-circuit first (returning index
`len(S)` for rfind and `0` for find), then the match vector, the sequential
prefix scan and the index sum, and finally the rfind correction forcing
`(len(S), true)` when a padded pattern is empty at runtime. -/
def find_or_rfind (s p : FheString) (reverse : Bool) : Option (Nat × Bool) :=
  match contains_trivially s p 0 with
  | some b => some (if reverse then (skLen s, b) else (0, b))
  | none =>
    match contains_at_index_vec s p with
    | none => none
    | some v =>
      let r := findIndexSum v reverse
      if reverse && p.is_padded then
        some (if isEmptyFhe p then skLen s else r.1, isEmptyFhe p || r.2)
      else
        some r

/-- `ServerKey::rfind` : asserts both inputs reusable, then
`find_or_rfind` with `reverse = true`. -/
def rfind (s p : FheString) : Option (Nat × Bool) :=
  if !s.is_reusable || !p.is_reusable then none
  else find_or_rfind s p true

/-- Strict lexicographic order on byte lists, i.e. Rust's `<` on the `String`s
compared by the clear/clear branch of `lt`. -/
def lexLt : List Nat → List Nat → Bool
  | [], [] => false
  | [], _ :: _ => true
  | _ :: _, [] => false
  | a :: xs, b :: ys => decide (a < b) || ((a == b) && lexLt xs ys)

/-- The sequential `all_k_before_eq` vector of `lt` read at position `i` :
whether `A[k] = B[k]` for every `k < i` on the cropped range. -/
def allEqBefore (av bv : List Nat) (i : Nat) : Bool :=
  (List.range i).all (fun k => av.getD k 0 == bv.getD k 0)

/-- `ServerKey::lt` : asserts both inputs reusable; empty-length
short-circuits; crops both strings to the shorter visible length; the
clear/clear branch returns the Rust comparison of the cropped strings; the
encrypted branches compute `exists = any_i (A[i] < B[i] AND all_k_before_eq
i)`, and when `len(B) > len(A)` return `exists OR (all_equal AND NOT
is_empty(B[len(A)..len(B)]))`, else just `exists`. -/
def ltFhe (a b : FheString) : Option Bool :=
  if !a.is_reusable || !b.is_reusable then none
  else
    let lenA := a.len
    let lenB := b.len
    if lenA = 0 then some (!(isEmptyFhe b))
    else if lenB = 0 then some false
    else
      let m := min lenA lenB
      if !a.is_encrypted && !b.is_encrypted then
        some (lexLt (a.vals.take m) (b.vals.take m))
      else
        let av := a.vals.take m
        let bv := b.vals.take m
        let existsI := (List.range m).any
          (fun i => allEqBefore av bv i && decide (av.getD i 0 < bv.getD i 0))
        let allEqual := allEqBefore av bv m
        if lenB ≤ lenA then some existsI
        else
          some (existsI || (allEqual && !(is_empty_indices b lenA lenB)))

/-! ### Reusability-assert behaviour of the public operations

`ServerKey::assert_is_reusable` aborts with a message naming the operation
when `is_reusable` is false.  The predicates below record, for each public
operation, whether the call aborts because of a non-reusable input, following
the source order of asserts and early returns. -/

/-- Abort behaviour of the operations that assert both inputs unconditionally
at entry: `eq`, `ne`, `lt`, `le`, `gt`, `ge`, `eq_ignore_case`, `contains`,
`starts_with`, `ends_with`, `find`, `rfind`, `strip_prefix`,
`strip_prefix_reusable`, `strip_suffix`, `split`, `rsplit`, `split_inclusive`,
`split_terminator`, `rsplit_terminator`, `rsplitn`, `rsplit_once`. -/
def binaryReuseAborts (a b : FheString) : Bool :=
  !a.is_reusable || !b.is_reusable

/-- Abort behaviour of the three-input operations `replace` and `replacen`
(`replace_or_replacen` asserts all three inputs at entry). -/
def ternaryReuseAborts (a b c : FheString) : Bool :=
  !a.is_reusable || !b.is_reusable || !c.is_reusable

/-- Abort behaviour of the one-input operations `trim_start`, `trim_end`,
`trim`, their `_reusable` variants and `split_ascii_whitespace`. -/
def unaryReuseAborts (a : FheString) : Bool :=
  !a.is_reusable

/-- Abort behaviour of `splitn` : the string is asserted at entry, but the
early returns for `n_times = 0` and `n_times = 1` fire before
`unchecked_splitn` asserts the pattern. -/
def splitnReuseAborts (nTimes : Nat) (a b : FheString) : Bool :=
  if !a.is_reusable then true
  else if nTimes = 0 then false
  else if nTimes = 1 then false
  else !b.is_reusable

/-- Abort behaviour of `split_once` : the string is asserted at entry, but
the early returns for an over-long unpadded pattern and for a visibly empty
string fire before `unchecked_split_once` asserts the pattern. -/
def splitOnceReuseAborts (a b : FheString) : Bool :=
  if !a.is_reusable then true
  else if !b.is_padded && decide (a.len < b.len) then false
  else if a.len = 0 then false
  else !b.is_reusable

/-! ### The field-id fold of `split_general` -/

/-- The sequential state of the single-pattern field-id fold of
`split_general` : `pattern_start_index`, `first_one_seen`, and the previous
`cum_sum` value. -/
structure CumState where
  p : Nat
  f : Bool
  last : Nat
deriving DecidableEq, Repr

/-- One iteration of the `cum_sum` loop of `split_general` (single-pattern,
non-whitespace case) at index `i` with match bit `mi` : computes
`is_first_one`, `pattern_just_ended`, `pattern_ended`, `pattern_starts`,
updates `pattern_start_index`, produces the new `cum_sum` value (increased by
`pattern_starts` unless inclusive, plus `pattern_just_ended`, capped at
`2 * n_times` for splitn when `i > 0`), and records the match bit into
`first_one_seen`. -/
def cumStep (inclusive splitn : Bool) (nTimes plen i : Nat) (st : CumState)
    (mi : Bool) : CumState :=
  let isFirstOne := mi && !st.f
  let patternJustEnded := decide (st.p + plen = i) && st.f
  let patternEnded := decide (st.p + plen ≤ i) && st.f
  let patternStarts := isFirstOne || (mi && patternEnded)
  let p' := if patternStarts then i else st.p
  let s :=
    if i = 0 then
      if inclusive then 0 else cond patternStarts 1 0
    else
      let base := if inclusive then st.last else st.last + cond patternStarts 1 0
      let s0 := base + cond patternJustEnded 1 0
      if splitn then (if 2 * nTimes < s0 then 2 * nTimes else s0) else s0
  { p := p', f := st.f || mi, last := s }

/-- The `cum_sum` loop of `split_general` over the remaining match bits,
starting at index `i` in state `st`. -/
def cumGo (inclusive splitn : Bool) (nTimes plen : Nat) :
    Nat → CumState → List Bool → List Nat
  | _, _, [] => []
  | i, st, mi :: rest =>
    let st' := cumStep inclusive splitn nTimes plen i st mi
    st'.last :: cumGo inclusive splitn nTimes plen (i + 1) st' rest

/-- The `cum_sum` vector of `split_general` for match vector `m` and hidden
pattern length `plen`, from the initial state (`pattern_start_index = 0`,
`first_one_seen = false`). -/
def splitCumSum (m : List Bool) (plen : Nat) (inclusive splitn : Bool)
    (nTimes : Nat) : List Nat :=
  cumGo inclusive splitn nTimes plen 0 ⟨0, false, 0⟩ m

/-- The match vector fed to the fold: `contains_at_index_vec`, extended with
zeros to the visible string length, plus one extra zero
(`split_general` lines 384-391). -/
def splitMatchVec (s p : FheString) : Option (List Bool) :=
  (contains_at_index_vec s p).map
    (fun v => (v ++ List.replicate (s.len - v.length) false) ++ [false])

/-- The `cum_sum` vector produced by `split_general` on string `s` and single
pattern `p` (with `encrypted_pattern_length = ServerKey::len(p)`). -/
def splitCumSumOf (s p : FheString) (inclusive splitn : Bool) (nTimes : Nat) :
    Option (List Nat) :=
  (splitMatchVec s p).map
    (fun m => splitCumSum m (skLen p) inclusive splitn nTimes)

/-! ### Spec-side reference: greedy non-overlapping pattern occurrences

Per the specification of the split engine, a pattern occurrence starts at
index `i` when `match[i]` holds and the previous occurrence has ended
(`pattern_start + hidden_len(P) <= i`); the occurrence covers the `plen`
following positions.  The scan below is written from those words and produces
for every index the pair (covered by an occurrence, an occurrence ends exactly
here). -/

/-- Greedy occurrence scan: state is the end `e` of the last occurrence
started so far and whether any occurrence was `seen`. -/
def greedyGo (plen : Nat) : Nat → Nat → Bool → List Bool → List (Bool × Bool)
  | _, _, _, [] => []
  | i, e, seen, mi :: rest =>
    let endEvent := seen && decide (e = i)
    let starts := mi && decide (e ≤ i)
    let covered := starts || decide (i < e)
    (covered, endEvent) ::
      greedyGo plen (i + 1) (if starts then i + plen else e) (seen || starts) rest

/-- The per-index greedy scan of a match vector from the initial state. -/
def greedyScan (m : List Bool) (plen : Nat) : List (Bool × Bool) :=
  greedyGo plen 0 0 false m

/-- Whether position `i` of match vector `m` lies inside a greedy
non-overlapping pattern occurrence of length `plen`. -/
def greedyCovered (m : List Bool) (plen : Nat) (i : Nat) : Bool :=
  ((greedyScan m plen).getD i (false, false)).1

/-- The number of greedy occurrences that have ended at a position `≤ i`. -/
def greedyEndCount (m : List Bool) (plen : Nat) (i : Nat) : Nat :=
  ((greedyScan m plen).take (i + 1)).countP (fun x => x.2)

/-! ## Helper lemmas -/

theorem dropWhile_zero_replicate_append (p : Nat) (xs : List Nat) :
    List.dropWhile (fun c => c == 0) (List.replicate p 0 ++ xs)
      = List.dropWhile (fun c => c == 0) xs := by
  induction p with
  | zero => simp
  | succ n ih => simp [List.replicate_succ, ih]

theorem dropWhile_zero_eq_self (xs : List Nat) (h : ∀ c ∈ xs, c ≠ 0) :
    List.dropWhile (fun c => c == 0) xs = xs := by
  cases xs with
  | nil => rfl
  | cons x l =>
    have hx : x ≠ 0 := h x (List.mem_cons_self x l)
    simp [List.dropWhile_cons, hx]

theorem trimEndZeros_append_replicate (l : List Nat) (p : Nat)
    (h : ∀ c ∈ l, c ≠ 0) : trimEndZeros (l ++ List.replicate p 0) = l := by
  unfold trimEndZeros
  rw [List.reverse_append, List.reverse_replicate,
    dropWhile_zero_replicate_append,
    dropWhile_zero_eq_self l.reverse (fun c hc => h c (List.mem_reverse.mp hc)),
    List.reverse_reverse]

theorem filter_dropWhile_zero (xs : List Nat) :
    (xs.dropWhile (fun c => c == 0)).filter (fun c => c != 0)
      = xs.filter (fun c => c != 0) := by
  induction xs with
  | nil => rfl
  | cons x l ih =>
    by_cases hx : x = 0
    · subst hx
      simp [List.dropWhile_cons, ih]
    · simp [List.dropWhile_cons, hx]

theorem filter_trimEndZeros (l : List Nat) :
    (trimEndZeros l).filter (fun c => c != 0) = l.filter (fun c => c != 0) := by
  unfold trimEndZeros
  rw [List.filter_reverse, filter_dropWhile_zero, ← List.filter_reverse,
    List.reverse_reverse]

/-! ## C3 : decrypt ∘ encrypt is the identity on clear ASCII strings -/

/-- C3 : for every clear ASCII string `s` (bytes in `1..=127`) and every
padding count `p`, decrypting the encryption of `s` with `p` trailing zero
bytes returns exactly `s` (the trailing zeros are stripped). -/
theorem decrypt_encrypt_roundtrip (s : List Nat) (p : Nat)
    (h : ∀ c ∈ s, 0 < c ∧ c ≤ 127) :
    ((from_string s).bind (fun fs => fs.encrypt p)).bind FheString.decrypt
      = from_string s := by
  have hall : s.all (fun c => decide (0 < c) && decide (c ≤ 127)) = true := by
    simp only [List.all_eq_true, Bool.and_eq_true, decide_eq_true_eq]
    exact h
  have hascii : s.all (fun c => decide (c ≤ 127)) = true := by
    simp only [List.all_eq_true, decide_eq_true_eq]
    exact fun c hc => (h c hc).2
  have hnz : ∀ c ∈ s, c ≠ 0 := by
    intro c hc
    have := (h c hc).1
    omega
  have hascii2 : (s ++ List.replicate p 0).all (fun c => decide (c ≤ 127)) = true := by
    simp only [List.all_append, hascii, Bool.true_and, List.all_eq_true]
    intro c hc
    have := List.eq_of_mem_replicate hc
    simp [this]
  have htrim : trimEndZeros (s ++ List.replicate p 0) = s :=
    trimEndZeros_append_replicate s p hnz
  have hany : s.any (fun c => c == 0) = false := by
    simp only [List.any_eq_false]
    intro c hc
    simpa using hnz c hc
  have hfilter : s.filter (fun c => c != 0) = s := by
    rw [List.filter_eq_self]
    intro c hc
    simpa using hnz c hc
  have hstep0 : from_string s = some ⟨s, [], false, false, true⟩ := by
    simp [from_string, hall]
  have hstep1 : (FheString.mk s [] false false true).encrypt p
      = some ⟨[], s ++ List.replicate p 0, true, decide (p > 0), true⟩ := by
    simp [FheString.encrypt, hascii]
  have hstep2 : (FheString.mk [] (s ++ List.replicate p 0) true
      (decide (p > 0)) true).decrypt = some ⟨s, [], false, false, true⟩ := by
    simp [FheString.decrypt, hascii2, htrim, hany, hfilter]
  rw [hstep0]
  simp [hstep1, hstep2]

/-- C3 witness at `s = "hi"`, `p = 3`. -/
theorem decrypt_encrypt_roundtrip_witness :
    (∀ c ∈ [104, 105], 0 < c ∧ c ≤ 127) ∧
      ((from_string [104, 105]).bind (fun fs => fs.encrypt 3)).bind
          FheString.decrypt = from_string [104, 105] :=
  ⟨by decide, decrypt_encrypt_roundtrip [104, 105] 3 (by decide)⟩

/-! ## C9 : decrypt on a non-reusable string strips all zero bytes -/

/-- C9 : decrypting an encrypted `FheString` with `is_reusable = false` (and
ASCII byte values) does not abort on interior zeros: it returns the clear,
unpadded, reusable `FheString` holding exactly the non-zero bytes in their
original order. -/
theorem decrypt_non_reusable (s : FheString)
    (henc : s.is_encrypted = true) (hnr : s.is_reusable = false)
    (hascii : ∀ c ∈ s.fheChars, c ≤ 127) :
    s.decrypt = some { chars := s.fheChars.filter (fun c => c != 0),
                       fheChars := [], is_encrypted := false,
                       is_padded := false, is_reusable := true } := by
  have hall : s.fheChars.all (fun c => decide (c ≤ 127)) = true := by
    simp only [List.all_eq_true, decide_eq_true_eq]
    exact hascii
  simp [FheString.decrypt, henc, hall, hnr, filter_trimEndZeros]

/-- C9 witness at the encrypted non-reusable value `"a\0b"`. -/
theorem decrypt_non_reusable_witness :
    (⟨[], [97, 0, 98], true, true, false⟩ : FheString).is_encrypted = true ∧
      (⟨[], [97, 0, 98], true, true, false⟩ : FheString).decrypt
        = some ⟨[97, 98], [], false, false, true⟩ :=
  ⟨rfl, by
    have := decrypt_non_reusable ⟨[], [97, 0, 98], true, true, false⟩ rfl rfl
      (by decide)
    simpa using this⟩

/-! ## C7 : clear values, `sub_string` and the padding flag -/

/-- C7 counterexample : the clear `FheString` returned by `sub_string` on a
clear `FheString` has `is_padded = true`, so clear values reachable through
the public interface are not always unpadded. -/
theorem sub_string_clear_padded_cex :
    (from_string [97]).map
        (fun fs => ((fs.sub_string 0 0).is_encrypted,
                    (fs.sub_string 0 0).is_padded))
      = some (false, true) := by decide

/-- C7 amended : a clear `FheString` built by `from_string` is reusable and
unpadded, and `sub_string` on it returns a clear value that is still reusable
but always flagged `is_padded = true`. -/
theorem clear_reusable_sub_string_flags (s : List Nat) (fs : FheString)
    (h : from_string s = some fs) (a b : Nat) :
    fs.is_reusable = true ∧ fs.is_padded = false ∧
      (fs.sub_string a b).is_encrypted = false ∧
      (fs.sub_string a b).is_reusable = true ∧
      (fs.sub_string a b).is_padded = true := by
  unfold from_string at h
  split at h
  · cases h
    simp [FheString.sub_string]
  · cases h

/-- C7 amended witness at `s = "a"`, `a = b = 0`. -/
theorem clear_reusable_sub_string_flags_witness :
    from_string [97] = some ⟨[97], [], false, false, true⟩ ∧
      ((⟨[97], [], false, false, true⟩ : FheString).is_reusable = true ∧
        (⟨[97], [], false, false, true⟩ : FheString).is_padded = false ∧
        ((⟨[97], [], false, false, true⟩ : FheString).sub_string 0 0).is_encrypted = false ∧
        ((⟨[97], [], false, false, true⟩ : FheString).sub_string 0 0).is_reusable = true ∧
        ((⟨[97], [], false, false, true⟩ : FheString).sub_string 0 0).is_padded = true) :=
  ⟨by decide, clear_reusable_sub_string_flags [97] _ (by decide) 0 0⟩

/-! ## C8 : `compute_blocks_for_len` -/

/-- C8 counterexample : at `n = 2` the block count `k = 1` already satisfies
`2^(2k) > n`, yet `compute_blocks_for_len 2 = 2`, so the function does not
return the smallest such `k`. -/
theorem compute_blocks_for_len_not_minimal_cex :
    compute_blocks_for_len 2 = 2 ∧ 2 < 2 ^ (2 * 1) := by
  constructor
  · simp [compute_blocks_for_len, Nat.clog_of_two_le, Nat.clog_of_right_le_one]
  · decide

/-- C8 amended : for every `n ≥ 1`, `compute_blocks_for_len n = ⌈log₂ n⌉ + 1`
satisfies the bound `2^(2k) > n` (but is not the smallest such `k`). -/
theorem compute_blocks_for_len_bound (n : Nat) (_h : 1 ≤ n) :
    n < 2 ^ (2 * compute_blocks_for_len n) := by
  unfold compute_blocks_for_len
  have h1 : n ≤ 2 ^ Nat.clog 2 n := Nat.le_pow_clog (by norm_num) n
  have h2 : 2 ^ Nat.clog 2 n < 2 ^ (2 * (Nat.clog 2 n + 1)) :=
    Nat.pow_lt_pow_right (by norm_num) (by omega)
  omega

/-- C8 amended witness at `n = 3`. -/
theorem compute_blocks_for_len_bound_witness :
    1 ≤ 3 ∧ 3 < 2 ^ (2 * compute_blocks_for_len 3) :=
  ⟨by decide, compute_blocks_for_len_bound 3 (by norm_num)⟩

/-! ## C10 : `concatenate` -/

/-- C10 : for a non-empty vector of `FheString`s sharing one encryption
status, `concatenate` returns the character-wise concatenation, with
`is_padded` true iff some input is padded, and `is_reusable` true iff either
the vector is a singleton whose element is reusable, or every element except
the last is unpadded and the last is reusable. -/
theorem concatenate_spec (l : List FheString) (s0 : FheString)
    (h0 : l.head? = some s0)
    (henc : ∀ t ∈ l, t.is_encrypted = s0.is_encrypted) :
    ∃ r, concatenate l = some r ∧
      r.vals = (l.map FheString.vals).flatten ∧
      (r.is_padded = true ↔ ∃ t ∈ l, t.is_padded = true) ∧
      (r.is_reusable = true ↔
        ((l.length = 1 ∧ s0.is_reusable = true) ∨
          ((∀ t ∈ l.dropLast, t.is_padded = false) ∧
            (l.getLast?.getD s0).is_reusable = true))) := by
  obtain ⟨rest, rfl⟩ : ∃ rest, l = s0 :: rest := by
    cases l with
    | nil => simp at h0
    | cons a t =>
      obtain rfl : a = s0 := by simpa using h0
      exact ⟨t, rfl⟩
  have hcheck : (s0 :: rest).all (fun s => s.is_encrypted == s0.is_encrypted)
      = true := by
    simp only [List.all_eq_true, beq_iff_eq]
    exact henc
  have hconc : concatenate (s0 :: rest) = some
      { chars := ((s0 :: rest).map
          (fun s => if s.is_encrypted then [] else s.chars)).flatten,
        fheChars := ((s0 :: rest).map
          (fun s => if s.is_encrypted then s.fheChars else [])).flatten,
        is_encrypted := s0.is_encrypted,
        is_padded := (s0 :: rest).any (fun s => s.is_padded),
        is_reusable := if (s0 :: rest).length > 1 then
            ((s0 :: rest).dropLast.all (fun s => !s.is_padded)) &&
              (((s0 :: rest).getLast?.getD s0).is_reusable)
          else s0.is_reusable } := by
    rw [concatenate, hcheck]
    rw [if_pos rfl]
  refine ⟨_, hconc, ?_, ?_, ?_⟩
  · show (if s0.is_encrypted = true then _ else _) = _
    by_cases he : s0.is_encrypted = true
    · simp only [he, if_true]
      congr 1
      apply List.map_congr_left
      intro t ht
      have ht' := henc t ht
      rw [he] at ht'
      simp [FheString.vals, ht']
    · have he' : s0.is_encrypted = false := by simpa using he
      simp only [he', Bool.false_eq_true, if_false]
      congr 1
      apply List.map_congr_left
      intro t ht
      have ht' := henc t ht
      rw [he'] at ht'
      simp [FheString.vals, ht']
  · simp [List.any_eq_true]
  · show (if (s0 :: rest).length > 1 then _ else _) = true ↔ _
    cases rest with
    | nil =>
      cases hr : s0.is_reusable <;> simp [hr]
    | cons b bs =>
      have hlen : ¬ (s0 :: b :: bs).length = 1 := by simp
      simp only [List.length_cons, gt_iff_lt, if_pos (by omega : 1 < bs.length + 1 + 1)]
      simp [hlen, List.all_eq_true]

/-- C10 witness at a two-element clear vector. -/
theorem concatenate_spec_witness :
    ([⟨[97], [], false, false, true⟩,
      (⟨[98], [], false, true, true⟩ : FheString)].head?
        = some ⟨[97], [], false, false, true⟩) ∧
      ∃ r, concatenate [⟨[97], [], false, false, true⟩,
            ⟨[98], [], false, true, true⟩] = some r ∧
        r.vals = ([(⟨[97], [], false, false, true⟩ : FheString),
            ⟨[98], [], false, true, true⟩].map FheString.vals).flatten ∧
        (r.is_padded = true ↔ ∃ t ∈ [(⟨[97], [], false, false, true⟩ : FheString),
            ⟨[98], [], false, true, true⟩], t.is_padded = true) ∧
        (r.is_reusable = true ↔
          (([(⟨[97], [], false, false, true⟩ : FheString),
              ⟨[98], [], false, true, true⟩].length = 1 ∧
              (⟨[97], [], false, false, true⟩ : FheString).is_reusable = true) ∨
            ((∀ t ∈ [(⟨[97], [], false, false, true⟩ : FheString),
                ⟨[98], [], false, true, true⟩].dropLast, t.is_padded = false) ∧
              ([(⟨[97], [], false, false, true⟩ : FheString),
                ⟨[98], [], false, true, true⟩].getLast?.getD
                  ⟨[97], [], false, false, true⟩).is_reusable = true))) :=
  ⟨by decide,
    concatenate_spec [⟨[97], [], false, false, true⟩, ⟨[98], [], false, true, true⟩]
      ⟨[97], [], false, false, true⟩ (by decide) (by decide)⟩

/-! ## C4 : reusability asserts of the public operations -/

/-- C4 counterexample : `splitn` with `n_times = 1` returns without asserting
the pattern, so it does not abort although the pattern is not reusable. -/
theorem splitn_skips_pattern_assert_cex :
    splitnReuseAborts 1 ⟨[97], [], false, false, true⟩
        ⟨[], [0, 97], true, true, false⟩ = false ∧
      (⟨[], [0, 97], true, true, false⟩ : FheString).is_reusable = false := by
  decide

/-- C4 amended : the two-input operations `eq`, `ne`, `lt`, `le`, `gt`, `ge`,
`eq_ignore_case`, `contains`, `starts_with`, `ends_with`, `find`, `rfind`,
`strip_prefix(_reusable)`, `strip_suffix`, `split`, `rsplit`,
`split_inclusive`, `(r)split_terminator`, `rsplitn` and `rsplit_once`, the
three-input `replace`/`replacen`, and the one-input trim operations and
`split_ascii_whitespace` abort exactly when some input is non-reusable;
`splitn` skips the pattern assert when `n_times ≤ 1`, and `split_once` skips
it on its two trivial early returns. -/
theorem reuse_assert_characterization (a b c : FheString) (n : Nat) :
    (binaryReuseAborts a b = true ↔
        ¬(a.is_reusable = true ∧ b.is_reusable = true)) ∧
      (ternaryReuseAborts a b c = true ↔
        ¬(a.is_reusable = true ∧ b.is_reusable = true ∧ c.is_reusable = true)) ∧
      (unaryReuseAborts a = true ↔ a.is_reusable = false) ∧
      (splitnReuseAborts n a b = true ↔
        (a.is_reusable = false ∨ (2 ≤ n ∧ b.is_reusable = false))) ∧
      (splitOnceReuseAborts a b = true ↔
        (a.is_reusable = false ∨ ((b.is_padded = true ∨ b.len ≤ a.len) ∧
          a.len ≠ 0 ∧ b.is_reusable = false))) := by
  refine ⟨?_, ?_, ?_, ?_, ?_⟩
  · cases ha : a.is_reusable <;> cases hb : b.is_reusable <;>
      simp [binaryReuseAborts, ha, hb]
  · cases ha : a.is_reusable <;> cases hb : b.is_reusable <;>
      cases hc : c.is_reusable <;> simp [ternaryReuseAborts, ha, hb, hc]
  · cases ha : a.is_reusable <;> simp [unaryReuseAborts, ha]
  · unfold splitnReuseAborts
    cases ha : a.is_reusable <;> cases hb : b.is_reusable <;>
      (simp [ha, hb]; try omega)
  · unfold splitOnceReuseAborts
    cases ha : a.is_reusable <;> cases hb : b.is_reusable <;>
      cases hp : b.is_padded <;> simp [ha, hb, hp]

/-! ## C6 : rfind on a runtime-empty padded pattern -/

theorem option_mapM_isSome {α β : Type} (l : List α) (f : α → Option β)
    (h : ∀ x ∈ l, (f x).isSome) : (l.mapM f).isSome := by
  induction l with
  | nil =>
    rw [List.mapM_nil]
    rfl
  | cons x xs ih =>
    obtain ⟨y, hy⟩ := Option.isSome_iff_exists.mp (h x (by simp))
    have hxs := ih (fun z hz => h z (by simp [hz]))
    obtain ⟨ys, hys⟩ := Option.isSome_iff_exists.mp hxs
    rw [List.mapM_cons, hy, hys]
    rfl

theorem contains_trivially_indices_none_ne_zero {s p : FheString}
    {start2 end2 i : Nat}
    (h : contains_trivially_indices s p start2 end2 i = none) :
    end2 - start2 ≠ 0 := by
  intro h0
  simp [contains_trivially_indices, h0] at h

/-- On an encrypted padded pattern and an in-range index, the match kernel
never panics. -/
theorem contains_at_index_fuel_isSome :
    ∀ (fuel : Nat) (s p : FheString) (start2 end2 i : Nat),
      end2 - start2 < fuel → p.is_padded = true → i < s.len →
      p.is_encrypted = true →
      (contains_at_index_fuel fuel s p start2 end2 i).isSome = true := by
  intro fuel
  induction fuel with
  | zero =>
    intro s p start2 end2 i hf
    exact absurd hf (Nat.not_lt_zero _)
  | succ n ih =>
    intro s p start2 end2 i hf hp hi hpe
    rw [contains_at_index_fuel]
    rw [hp]
    simp only [Bool.not_true, Bool.false_eq_true, if_false]
    rw [if_neg (by omega : ¬ s.len ≤ i)]
    cases htriv : contains_trivially_indices s p start2 end2 i with
    | some b => simp
    | none =>
      simp only
      by_cases hov : s.len < end2 - start2 + i
      · rw [if_pos hov]
        have hne : end2 - start2 ≠ 0 :=
          contains_trivially_indices_none_ne_zero htriv
        have hrec := ih s p 0 ((end2 - start2) - ((end2 - start2) + i - s.len))
          i (by omega) hp hi hpe
        obtain ⟨c, hc⟩ := Option.isSome_iff_exists.mp hrec
        rw [hc]
        simp
      · rw [if_neg hov]
        cases he : s.is_encrypted <;> simp [hpe, he]

/-- A padded `FheString` whose hidden length is zero is empty at runtime. -/
theorem isEmptyFhe_of_skLen_zero (p : FheString) (hpad : p.is_padded = true)
    (h0 : skLen p = 0) : isEmptyFhe p = true := by
  unfold isEmptyFhe is_empty_indices
  by_cases hl : p.len = 0
  · simp [hl]
  · rw [if_neg (by omega)]
    unfold skLen at h0
    rw [if_neg hl, hpad] at h0
    simp only [Bool.not_true, Bool.false_eq_true, if_false] at h0
    cases he : p.is_encrypted with
    | false =>
      rw [he] at h0
      simp only [Bool.not_false, if_true] at h0
      have : p.chars = [] := List.length_eq_zero.mp h0
      simp [he, this]
    | true =>
      rw [he] at h0
      simp only [Bool.not_true, Bool.false_eq_true, if_false] at h0
      have hall : ∀ c ∈ p.fheChars, c = 0 := by
        intro c hc
        have := List.filter_eq_nil_iff.mp (List.length_eq_zero.mp h0) c hc
        simpa using this
      simp only [Bool.not_true, Bool.false_eq_true, if_false]
      rw [List.all_eq_true]
      intro c hc
      have hmem : c ∈ p.fheChars :=
        List.mem_of_mem_drop (List.mem_of_mem_take hc)
      simp [hall c hmem]

/-- C6 counterexample : the claim fails on a reachable input it covers.  For
`S` visibly empty but flagged padded (obtainable from `sub_string` with an
empty range, which keeps `is_reusable` and sets `is_padded = true`) and a
visibly non-empty runtime-empty padded `P`, no trivial short-circuit fires
(`S` is padded), and `contains_at_index_vec` evaluates the Rust range
`0..=fhe_string.len()-1` with `len() = 0` — an underflow panic (modelled by
`none`) — so `rfind` aborts instead of returning `(hidden_len S, true)`. -/
theorem rfind_empty_padded_underflow_cex :
    ((⟨[], [], true, true, true⟩ : FheString).is_reusable = true ∧
        (⟨[], [0, 0], true, true, true⟩ : FheString).is_reusable = true ∧
        (⟨[], [0, 0], true, true, true⟩ : FheString).is_padded = true ∧
        skLen ⟨[], [0, 0], true, true, true⟩ = 0) ∧
      rfind ⟨[], [], true, true, true⟩ ⟨[], [0, 0], true, true, true⟩
        = none := by
  decide

/-- C6 amended : `rfind` on a reusable string `S` and a reusable padded
pattern `P` that is empty at runtime (hidden length zero) returns
`(hidden_len S, true)`, except when `S` is visibly empty while flagged
padded — there the Rust range `0..=len-1` underflows and the call panics —
whence the hypothesis `s.len ≠ 0 ∨ s.is_padded = false`.  The hypothesis
`p.is_encrypted = true ∨ p.fheChars = []` is data-model invariant I1. -/
theorem rfind_empty_padded_returns_len (s p : FheString)
    (hsr : s.is_reusable = true) (hpr : p.is_reusable = true)
    (hpad : p.is_padded = true) (hplen : skLen p = 0)
    (hI1 : p.is_encrypted = true ∨ p.fheChars = [])
    (hs0 : s.len ≠ 0 ∨ s.is_padded = false) :
    rfind s p = some (skLen s, true) := by
  have hEmpty : isEmptyFhe p = true := isEmptyFhe_of_skLen_zero p hpad hplen
  unfold rfind
  rw [hsr, hpr]
  simp only [Bool.not_true, Bool.or_self, Bool.false_eq_true, if_false]
  unfold find_or_rfind
  cases htriv : contains_trivially s p 0 with
  | some b =>
    have hb : b = true := by
      unfold contains_trivially contains_trivially_indices at htriv
      split_ifs at htriv with h1 h2 h3
      · exact (Option.some_inj.mp htriv).symm
      · rw [hpad] at h2
        simp at h2
      · have : b = is_empty_indices p 0 p.len :=
          (Option.some_inj.mp htriv).symm
        rw [this]
        exact hEmpty
    rw [hb]
    simp
  | none =>
    have hplenpos : p.len ≠ 0 := by
      intro h0
      simp [contains_trivially, contains_trivially_indices, h0] at htriv
    have hslen : s.len ≠ 0 := by
      intro h0
      rcases hs0 with h | h
      · exact h h0
      · simp [contains_trivially, contains_trivially_indices, h0, h,
          hplenpos] at htriv
        split at htriv <;> exact Option.noConfusion htriv
    have hpe : p.is_encrypted = true := by
      by_cases he : p.is_encrypted = true
      · exact he
      · exfalso
        have he' : p.is_encrypted = false := by simpa using he
        rcases hI1 with h | h
        · exact he h
        · unfold skLen at hplen
          rw [if_neg hplenpos, hpad] at hplen
          simp only [Bool.not_true, Bool.false_eq_true, if_false, he',
            Bool.not_false, if_true] at hplen
          have hcl : p.chars = [] := List.length_eq_zero.mp hplen
          have : p.len = 0 := by
            unfold FheString.len
            rw [hcl, h]
            rfl
          exact hplenpos this
    have hvec : (contains_at_index_vec s p).isSome = true := by
      unfold contains_at_index_vec
      rw [hpad]
      simp only [Bool.not_true, Bool.false_eq_true, if_false]
      rw [if_neg hslen]
      apply option_mapM_isSome
      intro i hi
      have hilt : i < s.len := List.mem_range.mp hi
      exact contains_at_index_fuel_isSome (p.len - 0 + 1) s p 0 p.len i
        (by omega) hpad hilt hpe
    obtain ⟨v, hv⟩ := Option.isSome_iff_exists.mp hvec
    rw [hv]
    simp only [hpad, Bool.and_true, if_true, hEmpty, Bool.true_or]

/-- C6 amended witness at `S = "a"` (encrypted, unpadded) and `P = "\0\0"`
(encrypted, padded, runtime-empty). -/
theorem rfind_empty_padded_returns_len_witness :
    ((⟨[], [97], true, false, true⟩ : FheString).is_reusable = true ∧
        (⟨[], [0, 0], true, true, true⟩ : FheString).is_padded = true ∧
        skLen ⟨[], [0, 0], true, true, true⟩ = 0) ∧
      rfind ⟨[], [97], true, false, true⟩ ⟨[], [0, 0], true, true, true⟩
        = some (skLen ⟨[], [97], true, false, true⟩, true) :=
  ⟨by decide,
    rfind_empty_padded_returns_len ⟨[], [97], true, false, true⟩
      ⟨[], [0, 0], true, true, true⟩ rfl rfl rfl (by decide)
      (Or.inl rfl) (Or.inl (by decide))⟩

/-! ## C2 : the field ids assigned by the `cum_sum` fold -/

/-- The `pattern_start_index` / `first_one_seen` components of one fold step,
expressed through the greedy-scan state (`e` = end of the last occurrence,
`seen` = some occurrence started). -/
theorem cumStep_state (inclusive splitn : Bool) (nT plen i : Nat)
    (st : CumState) (e : Nat) (seen mi : Bool)
    (hf : st.f = seen)
    (hns : seen = false → st.p = 0 ∧ e = 0)
    (hs : seen = true → st.p + plen = e) :
    (cumStep inclusive splitn nT plen i st mi).f
        = (seen || (mi && decide (e ≤ i)))
      ∧ (cumStep inclusive splitn nT plen i st mi).p
        = (if (mi && decide (e ≤ i)) = true then i else st.p) := by
  cases seen with
  | false =>
    obtain ⟨hp0, he0⟩ := hns rfl
    constructor
    · simp [cumStep, hf, he0]
    · simp [cumStep, hf, hp0, he0]
  | true =>
    have hse := hs rfl
    constructor
    · simp [cumStep, hf]
    · simp [cumStep, hf, hse]

/-- The `pattern_starts` expression of the fold equals the greedy `starts`. -/
theorem cumStep_starts (plen i : Nat) (st : CumState) (e : Nat)
    (seen mi : Bool)
    (hf : st.f = seen)
    (hns : seen = false → st.p = 0 ∧ e = 0)
    (hs : seen = true → st.p + plen = e) :
    ((mi && !st.f) || (mi && (decide (st.p + plen ≤ i) && st.f)))
      = (mi && decide (e ≤ i)) := by
  cases seen with
  | false =>
    obtain ⟨hp0, he0⟩ := hns rfl
    simp [hf, hp0, he0]
  | true =>
    have hse := hs rfl
    simp [hf, hse]

/-- The `pattern_just_ended` expression of the fold equals the greedy
end-event. -/
theorem cumStep_just_ended (plen i : Nat) (st : CumState) (e : Nat)
    (seen : Bool)
    (hf : st.f = seen)
    (hs : seen = true → st.p + plen = e) :
    (decide (st.p + plen = i) && st.f) = (seen && decide (e = i)) := by
  cases seen with
  | false => simp [hf]
  | true =>
    have hse := hs rfl
    simp [hf, hse]

/-- Parity step: in the non-inclusive mode the new `cum_sum` value is odd
exactly when position `i` lies inside a greedy occurrence (whose end-state
is `if starts then i + plen else e`). -/
theorem cumStep_parity (plen : Nat) (hp : 1 ≤ plen) (i : Nat)
    (st : CumState) (e : Nat) (seen mi : Bool)
    (hf : st.f = seen)
    (hns : seen = false → st.p = 0 ∧ e = 0)
    (hs : seen = true → st.p + plen = e)
    (h0 : i = 0 → seen = false)
    (hpar : 0 < i → (st.last % 2 = 1 ↔ i - 1 < e)) :
    ((cumStep false false 0 plen i st mi).last % 2 = 1 ↔
      i < (if (mi && decide (e ≤ i)) = true then i + plen else e)) := by
  have h1 := cumStep_starts plen i st e seen mi hf hns hs
  have h2 := cumStep_just_ended plen i st e seen hf hs
  have hlast : (cumStep false false 0 plen i st mi).last
      = if i = 0 then
          cond (mi && decide (e ≤ i)) 1 0
        else
          st.last + cond (mi && decide (e ≤ i)) 1 0
            + cond (seen && decide (e = i)) 1 0 := by
    simp only [cumStep, h1, h2, Bool.false_eq_true, if_false]
  rw [hlast]
  by_cases hi : i = 0
  · subst hi
    have hsn : seen = false := h0 rfl
    subst hsn
    obtain ⟨hp0, he0⟩ := hns rfl
    subst he0
    cases mi with
    | false => simp
    | true =>
      simp
      omega
  · have hipos : 0 < i := Nat.pos_of_ne_zero hi
    have hP := hpar hipos
    rw [if_neg hi]
    cases seen with
    | false =>
      obtain ⟨hp0, he0⟩ := hns rfl
      subst he0
      have heven : st.last % 2 = 0 := by
        rcases Nat.mod_two_eq_zero_or_one st.last with h | h
        · exact h
        · exact absurd (hP.mp h) (by omega)
      cases mi with
      | false => simp [heven]
      | true =>
        simp
        omega
    | true =>
      rcases Nat.lt_trichotomy e i with hlt | heq | hgt
      · have heven : st.last % 2 = 0 := by
          rcases Nat.mod_two_eq_zero_or_one st.last with h | h
          · exact h
          · exact absurd (hP.mp h) (by omega)
        have hde : (decide (e ≤ i) : Bool) = true := by
          simp
          omega
        have hdeq : (decide (e = i) : Bool) = false := by
          simp
          omega
        rw [hde, hdeq]
        cases mi with
        | false => simp [heven]; omega
        | true => simp; omega
      · subst heq
        have hodd : st.last % 2 = 1 := hP.mpr (by omega)
        simp only [decide_eq_true_eq, le_refl, decide_True]
        cases mi with
        | false => simp [hodd]; omega
        | true => simp [hodd]; omega
      · have hodd : st.last % 2 = 1 := hP.mpr (by omega)
        have hde : (decide (e ≤ i) : Bool) = false := by
          simp
          omega
        have hdeq : (decide (e = i) : Bool) = false := by
          simp
          omega
        rw [hde, hdeq]
        simp [hodd]
        omega

theorem cumStep_incl_last (plen i : Nat) (st : CumState) (e : Nat)
    (seen mi : Bool)
    (hf : st.f = seen)
    (hs : seen = true → st.p + plen = e)
    (h0 : i = 0 → seen = false) :
    (cumStep true false 0 plen i st mi).last
      = (if i = 0 then 0 else st.last) + cond (seen && decide (e = i)) 1 0 := by
  have h2 := cumStep_just_ended plen i st e seen hf hs
  simp only [cumStep, h2, Bool.false_eq_true, if_false, if_true]
  by_cases hi : i = 0
  · subst hi
    have hsn : seen = false := h0 rfl
    subst hsn
    simp
  · simp [hi]

theorem cum_parity_go (plen : Nat) (hp : 1 ≤ plen) (rest : List Bool) :
    ∀ (i : Nat) (st : CumState) (e : Nat) (seen : Bool),
      st.f = seen →
      (seen = false → st.p = 0 ∧ e = 0) →
      (seen = true → st.p + plen = e) →
      (i = 0 → seen = false) →
      (0 < i → (st.last % 2 = 1 ↔ i - 1 < e)) →
      ∀ j, j < rest.length →
        (((cumGo false false 0 plen i st rest).getD j 0) % 2 = 1 ↔
          ((greedyGo plen i e seen rest).getD j (false, false)).1 = true) := by
  induction rest with
  | nil =>
    intro i st e seen _ _ _ _ _ j hj
    simp at hj
  | cons mi rest ih =>
    intro i st e seen hf hns hs h0 hpar j hj
    have hstate := cumStep_state false false 0 plen i st e seen mi hf hns hs
    have hparstep := cumStep_parity plen hp i st e seen mi hf hns hs h0 hpar
    cases j with
    | zero =>
      simp only [cumGo, greedyGo, List.getD_cons_zero]
      rw [hparstep]
      cases hst : (mi && decide (e ≤ i)) with
      | false => simp [hst]
      | true =>
        simp [hst]
        omega
    | succ j2 =>
      simp only [cumGo, greedyGo, List.getD_cons_succ]
      apply ih (i + 1) (cumStep false false 0 plen i st mi)
        (if (mi && decide (e ≤ i)) = true then i + plen else e)
        (seen || (mi && decide (e ≤ i)))
      · exact hstate.1
      · intro hsn
        rw [Bool.or_eq_false_iff] at hsn
        obtain ⟨hsn1, hsn2⟩ := hsn
        constructor
        · rw [hstate.2, hsn2]
          simp
          exact (hns hsn1).1
        · rw [hsn2]
          simp
          exact (hns hsn1).2
      · intro hsn
        cases hst : (mi && decide (e ≤ i)) with
        | true =>
          rw [hstate.2, hst]
          simp
        | false =>
          rw [hst] at hsn
          rw [Bool.or_false] at hsn
          rw [hstate.2, hst]
          simp
          exact hs hsn
      · intro h
        omega
      · intro _
        simpa using hparstep
      · exact Nat.lt_of_succ_lt_succ hj

theorem cum_incl_go (plen : Nat) (rest : List Bool) :
    ∀ (i : Nat) (st : CumState) (e : Nat) (seen : Bool),
      st.f = seen →
      (seen = false → st.p = 0 ∧ e = 0) →
      (seen = true → st.p + plen = e) →
      (i = 0 → seen = false) →
      ∀ j, j < rest.length →
        ((cumGo true false 0 plen i st rest).getD j 0 =
          (if i = 0 then 0 else st.last) +
            ((greedyGo plen i e seen rest).take (j + 1)).countP
              (fun x => x.2)) := by
  induction rest with
  | nil =>
    intro i st e seen _ _ _ _ j hj
    simp at hj
  | cons mi rest ih =>
    intro i st e seen hf hns hs h0 j hj
    have hstate := cumStep_state true false 0 plen i st e seen mi hf hns hs
    have hlast := cumStep_incl_last plen i st e seen mi hf hs h0
    cases j with
    | zero =>
      simp only [cumGo, greedyGo, List.getD_cons_zero, List.take_succ_cons,
        List.take_zero, List.countP_cons, List.countP_nil]
      rw [hlast]
      cases hev : (seen && decide (e = i)) <;> simp [hev]
    | succ j2 =>
      simp only [cumGo, greedyGo, List.getD_cons_succ, List.take_succ_cons,
        List.countP_cons]
      rw [ih (i + 1) (cumStep true false 0 plen i st mi)
        (if (mi && decide (e ≤ i)) = true then i + plen else e)
        (seen || (mi && decide (e ≤ i)))
        hstate.1
        ?hns2 ?hs2 (by omega) j2 (Nat.lt_of_succ_lt_succ hj)]
      case hns2 =>
        intro hsn
        rw [Bool.or_eq_false_iff] at hsn
        obtain ⟨hsn1, hsn2⟩ := hsn
        constructor
        · rw [hstate.2, hsn2]
          simp
          exact (hns hsn1).1
        · rw [hsn2]
          simp
          exact (hns hsn1).2
      case hs2 =>
        intro hsn
        cases hst : (mi && decide (e ≤ i)) with
        | true =>
          rw [hstate.2, hst]
          simp
        | false =>
          rw [hst] at hsn
          rw [Bool.or_false] at hsn
          rw [hstate.2, hst]
          simp
          exact hs hsn
      · rw [hlast]
        simp only [Nat.add_eq, if_neg (Nat.succ_ne_zero i)]
        cases hev : (seen && decide (e = i)) <;> (simp [hev]; try omega)

/-- C2 amended : for every match vector `m` and hidden pattern length
`plen ≥ 1`, the non-inclusive `cum_sum` fold of `split_general` assigns odd
ids (1, 3, 5, ...) to positions covered by greedy non-overlapping pattern
occurrences and even ids (0, 2, 4, ...) to the non-pattern spans (whence
`split_result` keeps the even ids as fields); in the inclusive mode the id at
position `i` counts the occurrences ended at positions `≤ i`, so an
occurrence carries the same id as the span preceding it. -/
theorem split_general_cum_sum_ids (m : List Bool) (plen : Nat)
    (hp : 1 ≤ plen) (i : Nat) (hi : i < m.length) :
    (((splitCumSum m plen false false 0).getD i 0) % 2 = 1 ↔
        greedyCovered m plen i = true) ∧
      (splitCumSum m plen true false 0).getD i 0 = greedyEndCount m plen i := by
  constructor
  · have h := cum_parity_go plen hp m 0 ⟨0, false, 0⟩ 0 false rfl
      (fun _ => ⟨rfl, rfl⟩) (fun hc => nomatch hc) (fun _ => rfl)
      (fun hc => absurd hc (Nat.lt_irrefl 0)) i hi
    unfold splitCumSum greedyCovered greedyScan
    exact h
  · have h := cum_incl_go plen m 0 ⟨0, false, 0⟩ 0 false rfl
      (fun _ => ⟨rfl, rfl⟩) (fun hc => nomatch hc) (fun _ => rfl) i hi
    unfold splitCumSum greedyEndCount greedyScan
    rw [h]
    simp

/-- C2 amended witness at the match vector of `S = "ab"`, `P = "a"`. -/
theorem split_general_cum_sum_ids_witness :
    (1 ≤ 1 ∧ 0 < ([true, false, false] : List Bool).length) ∧
      ((((splitCumSum [true, false, false] 1 false false 0).getD 0 0) % 2 = 1 ↔
          greedyCovered [true, false, false] 1 0 = true) ∧
        (splitCumSum [true, false, false] 1 true false 0).getD 0 0
          = greedyEndCount [true, false, false] 1 0) :=
  ⟨⟨by decide, by decide⟩,
    split_general_cum_sum_ids [true, false, false] 1 (by decide) 0 (by decide)⟩

/-- C2 counterexample : for `S = "ab"` (encrypted, unpadded) and `P = "a"`
(encrypted, unpadded), `split_general` produces the match vector
`[1, 0, 0]` and the non-inclusive `cum_sum = [1, 2, 2]` — position 0 is a
pattern occurrence yet its id 1 is odd, refuting "pattern occurrences get
even ids". -/
theorem split_cum_sum_even_ids_cex :
    splitCumSumOf ⟨[], [97, 98], true, false, true⟩
        ⟨[], [97], true, false, true⟩ false false 0 = some [1, 2, 2] ∧
      splitMatchVec ⟨[], [97, 98], true, false, true⟩
        ⟨[], [97], true, false, true⟩ = some [true, false, false] ∧
      greedyCovered [true, false, false] 1 0 = true ∧
      ¬ ((1 : Nat) % 2 = 0) := by decide


/-! ## C5 : the `lt` comparison -/

/-- The formula of the C5 claim, written from its words: `exists` an index in
the common-prefix range with `A[i] < B[i]` and all earlier characters equal,
`OR`ed (when `len(B) > len(A)`) with `all_equal AND NOT
is_empty(B[len(A)..len(B)])`. -/
def ltClaimFormula (a b : FheString) : Bool :=
  let m := min a.len b.len
  let av := a.vals
  let bv := b.vals
  let existsI := (List.range m).any
    (fun i => decide (av.getD i 0 < bv.getD i 0) &&
      (List.range i).all (fun k => av.getD k 0 == bv.getD k 0))
  let allEqual := (List.range m).all (fun k => av.getD k 0 == bv.getD k 0)
  if a.len < b.len then
    existsI || (allEqual && !(is_empty_indices b a.len b.len))
  else existsI

/-- C5 : the claim formula holds on the encrypted paths, but the clear/clear
branch of `lt` compares the two strings cropped to the shorter length and
skips the tail correction, so `lt("abc", "abcd") = false` on clear inputs
although the claim formula (and Rust string order) give `true`. -/
theorem lt_clear_cropped_bug :
    ltFhe ⟨[97, 98, 99], [], false, false, true⟩
        ⟨[97, 98, 99, 100], [], false, false, true⟩ = some false ∧
      ltClaimFormula ⟨[97, 98, 99], [], false, false, true⟩
        ⟨[97, 98, 99, 100], [], false, false, true⟩ = true ∧
      ltFhe ⟨[], [97, 98, 99], true, false, true⟩
        ⟨[], [97, 98, 99, 100], true, false, true⟩ = some true := by
  decide

/-! ## C1 : the overrunning-tail check of `contains_at_index` -/

/-- The tail-emptiness required by the C1 claim: positions
`visible_len(S) - i .. visible_len(P)` of the pattern are all zero. -/
def overrunTailEmpty (s p : FheString) (index : Nat) : Bool :=
  ((p.vals.drop (s.len - index)).take (p.len - (s.len - index))).all
    (fun c => c == 0)

/-- C1 : at `S = "ab"` (encrypted, unpadded) and `P = "abc"` (encrypted,
flagged padded, e.g. obtained from `sub_string`), the kernel returns `true`
at index 0 — its emptiness check covers only `P[1 .. len-1]` of the
overrunning tail — although the truncated containment is `true` and the full
overrunning tail `P[2..3] = "c"` is not empty, so the claim's AND is `false`. -/
theorem contains_at_index_overrun_cex :
    contains_at_index ⟨[], [97, 98], true, false, true⟩
        ⟨[], [97, 98, 99], true, true, true⟩ 0 3 0 = some true ∧
      contains_at_index ⟨[], [97, 98], true, false, true⟩
        ⟨[], [97, 98, 99], true, true, true⟩ 0 2 0 = some true ∧
      overrunTailEmpty ⟨[], [97, 98], true, false, true⟩
        ⟨[], [97, 98, 99], true, true, true⟩ 0 = false := by
  decide

end FheStr
